import Mathlib

/-!
Verification of the `ved` streaming search-and-replace engine.

This file embeds the core of the repository (the `BufSearcher` sliding-window
scanner, the `DiffHeap` priority structure, the `Replacer` diff-application
engine, the `tee` dual-cursor stream splitter, the `replace_glob` dispatcher
and the CLI driver `run`) as executable Lean definitions, and proves or
refutes the specification's claims about them.

Bytes are modelled as `Nat`, byte strings as `List Nat`.  The underlying
readable source is modelled with the semantics of a file / `Cursor`: a read
request for `n` bytes returns `min n remaining` bytes.  Rust panics
(out-of-bounds slicing, `usize` underflow under debug semantics) are modelled
explicitly as error values of fallible functions.
-/

namespace Ved

/-- Constant `SEARCH_MAX` from `bufsearcher.rs`: the scan-buffer capacity. -/
def SEARCH_MAX : Nat := 4096

/-- Constant `COLUMN_MAX` from `bufsearcher.rs`: bound used when sizing the buffered span. -/
def COLUMN_MAX : Nat := 120

/-- Record `Diff` from `diff.rs`: one substitution record. -/
structure Diff where
  pos : Nat
  remove : Nat
  add : List Nat
deriving DecidableEq, Repr

/-- Lexicographic `<=` on byte strings, mirroring `Ord` on Rust byte slices
(used by the derived `Ord` on `Diff` for its `add` field). -/
def bytesLe : List Nat → List Nat → Bool
  | [], _ => true
  | _ :: _, [] => false
  | a :: as, b :: bs => decide (a < b) || (decide (a = b) && bytesLe as bs)

/-- The derived lexicographic `Ord` on `Diff` (`pos`, then `remove`, then `add`),
as documented in `diff.rs` ("it is important that the derived implementation of
Ord use this field as the first one"). -/
def diffLe (a b : Diff) : Bool :=
  decide (a.pos < b.pos) ||
    (decide (a.pos = b.pos) &&
      (decide (a.remove < b.remove) ||
        (decide (a.remove = b.remove) && bytesLe a.add b.add)))

/-- Structure `DiffHeap` from `diffheap.rs`, modelled as its multiset of elements.
`push` is cons, `merge_with` is append, and `pop` removes a minimal element
with respect to the derived `Ord` on `Diff` (`popMin` below). -/
def DiffHeap := List Diff

/-- Operation `DiffHeap::pop`: remove and return a minimum-`pos` diff, or `none` when empty.
`BinaryHeap<Reverse<Diff>>::pop` returns an element minimal for the derived
lexicographic order; ties can only be fully identical records, so returning the
first minimal element gives the same value. -/
def popMin : List Diff → Option (Diff × List Diff)
  | [] => none
  | d :: ds =>
    match popMin ds with
    | none => some (d, [])
    | some (m, rest) => if diffLe d m then some (d, ds) else some (m, d :: rest)

/-- The mutable state of `BufSearcher` (`bufsearcher.rs`), plus the unread
remainder of its source.  `buf` always has length `SEARCH_MAX` (the Rust field
is `[u8; SEARCH_MAX]`, initialized to zeros). -/
structure SState where
  pos : Nat
  buf : List Nat
  readHead : Nat
  dropHead : Nat
  lastLineStart : Nat
  src : List Nat
deriving DecidableEq, Repr

/-- Constructor `BufSearcher::new`: zero-filled buffer, all cursors at 0. -/
def initSState (input : List Nat) : SState :=
  { pos := 0, buf := List.replicate SEARCH_MAX 0, readHead := 0, dropHead := 0,
    lastLineStart := 0, src := input }

/-- Rust panics reachable from the scanner/replacer, modelled as error values.
`fuelOut` is an artifact of the embedding: it is returned when the fuel given
to a loop runs out (the corresponding Rust loop would still be running). -/
inductive Panic where
  | sliceOob
  | dropOob
  | emptyHeap
  | emptyPatterns
  | fuelOut
deriving DecidableEq, Repr

/-- Function `BufSearcher::minimum_match_length`: sum of pattern lengths plus
`patterns.len() - 1`.  (For an empty pattern sequence the Rust `usize`
subtraction underflows — a debug panic; `Nat` subtraction saturates to 0
here, a state the verified claims never enter.) -/
def minimumMatchLength (ps : List (List Nat)) : Nat :=
  (ps.map List.length).sum + (ps.length - 1)

/-- Function `BufSearcher::maximum_match_length`: sum of pattern lengths plus
`(patterns.len() - 1) * COLUMN_MAX`. -/
def maximumMatchLength (ps : List (List Nat)) : Nat :=
  (ps.map List.length).sum + (ps.length - 1) * COLUMN_MAX

/-- Function `BufSearcher::compress_buffer`: move `[drop_head, read_head)` to the front
of the buffer.  Bytes beyond the moved window keep their old (stale) values,
exactly as `clone_from_slice` leaves `buf[remaining..]` untouched. -/
def compress (st : SState) : SState :=
  let remaining := st.readHead - st.dropHead
  { st with
    buf := (st.buf.drop st.dropHead).take remaining ++ st.buf.drop remaining,
    pos := st.pos + st.dropHead,
    dropHead := 0,
    readHead := remaining }

/-- One `reader.read(&mut buf[read_head..])` call.  The source has file/cursor
semantics: it returns `min (SEARCH_MAX - read_head) remaining` bytes. -/
def readSource (st : SState) : SState :=
  let n := min (SEARCH_MAX - st.readHead) st.src.length
  { st with
    buf := st.buf.take st.readHead ++ st.src.take n ++ st.buf.drop (st.readHead + n),
    readHead := st.readHead + n,
    src := st.src.drop n }

/-- Function `BufSearcher::fill_buffer`. -/
def fillBuffer (ps : List (List Nat)) (st : SState) : SState :=
  let remaining := st.readHead - st.dropHead
  if maximumMatchLength ps > remaining then
    let missing := maximumMatchLength ps - remaining
    let st1 := if st.readHead + missing ≥ SEARCH_MAX then compress st else st
    readSource st1
  else st

/-- Function `BufSearcher::drop(nb_drop)`: advance `drop_head` byte by byte, updating
`last_line_start`; indexing `buf[drop_head]` out of bounds is a Rust panic. -/
def dropBytes : Nat → SState → Except Panic SState
  | 0, st => .ok st
  | n + 1, st =>
    if st.dropHead < SEARCH_MAX then
      let b := st.buf.getD st.dropHead 0
      let st' := { st with
        lastLineStart := if b = 10 then 0 else st.lastLineStart + 1,
        dropHead := st.dropHead + 1 }
      dropBytes n st'
    else .error .dropOob

/-- Index of the first newline byte in a list. -/
def findNl : List Nat → Option Nat
  | [] => none
  | a :: as => if a = 10 then some 0 else (findNl as).map (· + 1)

/-- Function `BufSearcher::next_line_offset`: bytes from `start_offset` to one past the
next newline, scanning `buf[start_offset..SEARCH_MAX]` (also over bytes beyond
`read_head`, exactly as the Rust loop does). -/
def nextLineOffset (buf : List Nat) (startOffset : Nat) : Option Nat :=
  (findNl (buf.drop startOffset)).map (· + 1)

/-- Function `BufSearcher::match_one_pattern`: compare `buf[drop_head+offset ..
drop_head+offset+len]` with the pattern.  A slice end beyond `SEARCH_MAX` is a
Rust slice-index panic.  On success, return the diff together with the
recorded `line_offset` (= `last_line_start`). -/
def matchOnePattern (st : SState) (offset : Nat) (pattern repl : List Nat) :
    Except Panic (Option (Diff × Nat)) :=
  let s := st.dropHead + offset
  let e := s + pattern.length
  if SEARCH_MAX < e then .error .sliceOob
  else if (st.buf.drop s).take pattern.length = pattern then
    .ok (some (⟨st.pos + s, pattern.length, repl⟩, st.lastLineStart))
  else .ok none

/-- The `for pattern in self.patterns.iter().skip(1)` loop of
`BufSearcher::match_buffer`.  `lineOff` is the first match's `line_offset`;
`prevLen` is `previous_match_len` (note: the `next_line_offset` argument is
`drop_head + previous_match_len`, as in the source). -/
def matchRest (st : SState) (repl : List Nat) (lineOff : Nat) :
    List (List Nat) → Nat → Nat → List Diff → Except Panic (Option (List Diff))
  | [], _, _, acc => .ok (some acc)
  | p :: ps, bufOffset, prevLen, acc =>
    match nextLineOffset st.buf (st.dropHead + prevLen) with
    | none => .ok none
    | some nlo =>
      let bo := bufOffset + prevLen + nlo + lineOff
      match matchOnePattern st bo p repl with
      | .error e => .error e
      | .ok none => .ok none
      | .ok (some (d, _)) => matchRest st repl lineOff ps bo d.remove (acc ++ [d])

/-- Function `BufSearcher::match_buffer`: try the whole pattern group at the current
`drop_head`; on any part's failure return `none` (no diff of the group is
emitted).  Indexing `patterns[0]` of an empty sequence is a Rust panic. -/
def matchBuffer (ps : List (List Nat)) (repl : List Nat) (st : SState) :
    Except Panic (Option (List Diff)) :=
  match ps with
  | [] => .error .emptyPatterns
  | p0 :: rest =>
    match matchOnePattern st 0 p0 repl with
    | .error e => .error e
    | .ok none => .ok none
    | .ok (some (d0, lineOff)) => matchRest st repl lineOff rest 0 d0.remove [d0]

/-- Function `BufSearcher::read_diffs`: the scan loop.  Returns `none` at end of
stream, or one emitted batch of diffs (a `DiffHeap`'s contents). -/
def readDiffs (ps : List (List Nat)) (repl : List Nat) :
    Nat → SState → Except Panic (Option (List Diff) × SState)
  | 0, _ => .error .fuelOut
  | fuel + 1, st =>
    let st1 := fillBuffer ps st
    let remaining := st1.readHead - st1.dropHead
    if minimumMatchLength ps > remaining then .ok (none, st1)
    else
      match matchBuffer ps repl st1 with
      | .error e => .error e
      | .ok none =>
        match dropBytes 1 st1 with
        | .error e => .error e
        | .ok st2 => readDiffs ps repl fuel st2
      | .ok (some heap) =>
        match dropBytes (ps.headD []).length st1 with
        | .error e => .error e
        | .ok st2 => .ok (some heap, st2)

/-- Fuel that always suffices for one `read_diffs` call: the loop advances the
scan position on every iteration that does not return. -/
def rdFuel (st : SState) : Nat := st.src.length + SEARCH_MAX + 2

/-- Function `BufSearcher::next_diff`: pop from the `ready` heap; when it is empty, read
the next batch, merge it in and pop.  An empty merged heap is the
`panic!("Internal error: ...")` in the source. -/
def nextDiff (ps : List (List Nat)) (repl : List Nat) (ready : List Diff)
    (st : SState) : Except Panic (Option Diff × List Diff × SState) :=
  match popMin ready with
  | some (d, rest) => .ok (some d, rest, st)
  | none =>
    match readDiffs ps repl (rdFuel st) st with
    | .error e => .error e
    | .ok (none, st') => .ok (none, [], st')
    | .ok (some heap, st') =>
      match popMin (ready ++ heap) with
      | none => .error .emptyHeap
      | some (d, rest) => .ok (some d, rest, st')

/-- Errors of one stream rewrite: a Rust panic (including the `usize`
underflow of `diff.pos - self.pos` in `Replacer::replace_next_diff` under
debug semantics, `subUnderflow`), or a failed `read_exact` (`ioEof`). -/
inductive RunError where
  | panic (p : Panic)
  | subUnderflow
  | ioEof
deriving DecidableEq, Repr

/-- The `replace_stream` driving loop: `Replacer::replace_next_diff` until the
diff iterator is exhausted.  `source` is the byte sequence delivered by the
trailing tee cursor (shown by the tee theorems below to be exactly the
original stream), `pos` is `Replacer::pos`.  Per diff: copy
`diff.pos - pos` bytes verbatim, consume `diff.remove` bytes, emit `diff.add`;
with no diff left, copy the rest verbatim (`copy_remaining`). -/
def replaceLoop (ps : List (List Nat)) (repl : List Nat) (source : List Nat) :
    Nat → List Diff → SState → Nat → Except RunError (List Nat)
  | 0, _, _, _ => .error (.panic .fuelOut)
  | fuel + 1, ready, st, pos =>
    match nextDiff ps repl ready st with
    | .error p => .error (.panic p)
    | .ok (none, _, _) => .ok (source.drop pos)
    | .ok (some d, ready', st') =>
      if d.pos < pos then .error .subUnderflow
      else
        let gap := d.pos - pos
        if source.length < pos + gap then .error .ioEof
        else if source.length < d.pos + d.remove then .error .ioEof
        else
          match replaceLoop ps repl source fuel ready' st' (d.pos + d.remove) with
          | .error e => .error e
          | .ok out => .ok ((source.drop pos).take gap ++ d.add ++ out)

/-- Function `replace_stream` from `replacer/mod.rs`: tee the input, scan one cursor
with `BufSearcher`, apply the diffs against the other cursor. -/
def replaceStream (ps : List (List Nat)) (repl : List Nat) (input : List Nat) :
    Except RunError (List Nat) :=
  replaceLoop ps repl input (input.length + 2) [] (initSState input) 0

/-- Drain the full diff sequence through `next_diff` pops, as an external
consumer of the `BufSearcher` iterator sees it. -/
def drainDiffs (ps : List (List Nat)) (repl : List Nat) :
    Nat → List Diff → SState → Except Panic (List Diff × SState)
  | 0, _, _ => .error .fuelOut
  | fuel + 1, ready, st =>
    match nextDiff ps repl ready st with
    | .error e => .error e
    | .ok (none, _, st') => .ok ([], st')
    | .ok (some d, ready', st') =>
      match drainDiffs ps repl fuel ready' st' with
      | .error e => .error e
      | .ok (ds, stf) => .ok (d :: ds, stf)


theorem fillBuffer_compress_read {ps : List (List Nat)} {st : SState}
    (h : maximumMatchLength ps > st.readHead - st.dropHead)
    (hc : st.readHead + (maximumMatchLength ps - (st.readHead - st.dropHead)) ≥ SEARCH_MAX) :
    fillBuffer ps st = readSource (compress st) := by
  rw [fillBuffer]; dsimp only; rw [if_pos h, if_pos hc]

theorem fillBuffer_read {ps : List (List Nat)} {st : SState}
    (h : maximumMatchLength ps > st.readHead - st.dropHead)
    (hc : ¬ st.readHead + (maximumMatchLength ps - (st.readHead - st.dropHead)) ≥ SEARCH_MAX) :
    fillBuffer ps st = readSource st := by
  rw [fillBuffer]; dsimp only; rw [if_pos h, if_neg hc]

theorem fillBuffer_skip {ps : List (List Nat)} {st : SState}
    (h : ¬ maximumMatchLength ps > st.readHead - st.dropHead) :
    fillBuffer ps st = st := by
  rw [fillBuffer]; dsimp only; rw [if_neg h]

theorem readDiffs_stop {ps : List (List Nat)} {repl : List Nat} {fuel : Nat} {st : SState}
    (hf : 0 < fuel)
    (h : minimumMatchLength ps > (fillBuffer ps st).readHead - (fillBuffer ps st).dropHead) :
    readDiffs ps repl fuel st = .ok (none, fillBuffer ps st) := by
  cases fuel with
  | zero => omega
  | succ n => rw [readDiffs]; try dsimp only
              rw [if_pos h]

theorem nextDiff_none {ps : List (List Nat)} {repl : List Nat} {st st' : SState}
    (h : readDiffs ps repl (rdFuel st) st = .ok (none, st')) :
    nextDiff ps repl [] st = .ok (none, [], st') := by
  rw [nextDiff]; simp only [popMin]; rw [h]

theorem replaceLoop_done {ps : List (List Nat)} {repl source : List Nat} {fuel pos : Nat}
    {ready ready' : List Diff} {st st' : SState}
    (hf : 0 < fuel)
    (h : nextDiff ps repl ready st = .ok (none, ready', st')) :
    replaceLoop ps repl source fuel ready st pos = .ok (source.drop pos) := by
  cases fuel with
  | zero => omega
  | succ n => rw [replaceLoop]; rw [h]

/-- Pattern of one byte more than the scan-buffer capacity `SEARCH_MAX`. -/
def bigPat : List Nat := List.replicate (SEARCH_MAX + 1) 88

theorem maxlen_big : maximumMatchLength [bigPat] = SEARCH_MAX + 1 := by
  simp only [maximumMatchLength, bigPat, List.map_cons, List.map_nil, List.length_replicate,
    List.sum_cons, List.sum_nil, List.length_cons, List.length_nil]
  norm_num [COLUMN_MAX]

theorem minlen_big : minimumMatchLength [bigPat] = SEARCH_MAX + 1 := by
  simp only [minimumMatchLength, bigPat, List.map_cons, List.map_nil, List.length_replicate,
    List.sum_cons, List.sum_nil, List.length_cons, List.length_nil]
  norm_num

theorem compress_init (input : List Nat) : compress (initSState input) = initSState input := by
  simp only [compress, initSState, List.drop_zero, List.take_zero, List.nil_append,
    Nat.sub_zero, Nat.add_zero]

/-- Behavior of `fill_buffer` on the freshly initialized scanner state for an input of at
least `SEARCH_MAX` bytes (with an over-long single pattern): the buffer fills
completely and `SEARCH_MAX` bytes are consumed. -/
theorem fill_big (input : List Nat) (hlen : SEARCH_MAX ≤ input.length) :
    fillBuffer [bigPat] (initSState input) =
      { pos := 0, buf := input.take SEARCH_MAX,
        readHead := SEARCH_MAX, dropHead := 0, lastLineStart := 0,
        src := input.drop SEARCH_MAX } := by
  rw [@fillBuffer_compress_read [bigPat] (initSState input)
      (by simp only [initSState]; rw [maxlen_big]; omega)
      (by simp only [initSState]; rw [maxlen_big]; omega)]
  rw [compress_init]
  simp only [readSource, initSState, Nat.sub_zero, List.take_zero, List.nil_append,
    Nat.zero_add]
  rw [min_eq_left hlen]
  have hd : (List.replicate SEARCH_MAX (0:Nat)).drop SEARCH_MAX = [] := by
    rw [List.drop_replicate]; simp
  rw [hd, List.append_nil]



theorem take_big (n m : Nat) (h : n ≤ m) (b : Nat) :
    (List.replicate m b).take n = List.replicate n b := by
  rw [List.take_replicate, min_eq_left h]

/-- C5 counterexample: with a pattern of `SEARCH_MAX + 1` bytes, the scanner
stops although two source bytes are still unread and the pattern occurs at
offset 0 of the input. -/
theorem c5_cex :
    readDiffs [bigPat] [89] 5 (initSState (List.replicate (SEARCH_MAX + 2) 88)) =
      .ok (none, { pos := 0, buf := List.replicate SEARCH_MAX 88, readHead := SEARCH_MAX,
                   dropHead := 0, lastLineStart := 0, src := List.replicate 2 88 }) ∧
    List.replicate 2 (88:Nat) ≠ [] ∧
    (List.replicate (SEARCH_MAX + 2) (88:Nat)).take bigPat.length = bigPat := by
  have hfill := fill_big (List.replicate (SEARCH_MAX + 2) 88)
    (by rw [List.length_replicate]; omega)
  refine ⟨?_, by simp, ?_⟩
  · rw [readDiffs_stop (by omega) (by rw [hfill]; dsimp only; rw [minlen_big]; omega)]
    rw [hfill]
    rw [take_big SEARCH_MAX (SEARCH_MAX + 2) (by omega), List.drop_replicate]
    have h2 : SEARCH_MAX + 2 - SEARCH_MAX = 2 := by omega
    rw [h2]
  · rw [bigPat, List.length_replicate, take_big _ _ (by omega)]

/-- C6 counterexample: a pattern longer than the scan buffer makes
`replace_stream` succeed with unchanged output; no `BadPattern` error is
signalled anywhere. -/
theorem c6_eval : replaceStream [bigPat] [89] bigPat = .ok bigPat := by
  have hfill := fill_big bigPat (by rw [bigPat, List.length_replicate]; omega)
  have hstop : readDiffs [bigPat] [89] (rdFuel (initSState bigPat)) (initSState bigPat) =
      .ok (none, fillBuffer [bigPat] (initSState bigPat)) :=
    readDiffs_stop (by simp only [rdFuel]; omega)
      (by rw [hfill]; dsimp only; rw [minlen_big]; omega)
  have hnext := nextDiff_none hstop
  rw [replaceStream]
  rw [replaceLoop_done (by omega) hnext]
  rw [List.drop_zero]



/-- The `Shared` state of the `tee` splitter (`teereader/mod.rs`), plus ghost
output logs `out0`/`out1` recording all bytes each cursor's `read` calls have
returned so far.  `src` is the full underlying source; `consumed` is how many
bytes of it the underlying reader has delivered (cursor semantics: a read
returns `min requested remaining` bytes). -/
structure TeeState where
  src : List Nat
  consumed : Nat
  buffer : List Nat
  globalOffset : Nat
  pos0 : Nat
  pos1 : Nat
  active0 : Bool
  active1 : Bool
  out0 : List Nat
  out1 : List Nat
deriving DecidableEq, Repr

/-- Constructor `tee(source)`: fresh shared state, both cursors at 0 and active. -/
def initTee (src : List Nat) : TeeState :=
  ⟨src, 0, [], 0, 0, 0, true, true, [], []⟩

def posOf (st : TeeState) : Bool → Nat
  | false => st.pos0
  | true => st.pos1

def setPos (st : TeeState) : Bool → Nat → TeeState
  | false, v => { st with pos0 := v }
  | true, v => { st with pos1 := v }

def pushOut (st : TeeState) : Bool → List Nat → TeeState
  | false, data => { st with out0 := st.out0 ++ data }
  | true, data => { st with out1 := st.out1 ++ data }

/-- Function `TeeReader::cleanup`: drop the buffer prefix below the minimum position
among active readers (or the sole live one; or the buffer end if both dead). -/
def teeCleanup (st : TeeState) : TeeState :=
  let minPos :=
    if st.active0 && st.active1 then min st.pos0 st.pos1
    else if st.active0 then st.pos0
    else if st.active1 then st.pos1
    else st.globalOffset + st.buffer.length
  let removeCount := minPos - st.globalOffset
  { st with buffer := st.buffer.drop removeCount,
            globalOffset := st.globalOffset + removeCount }

/-- Function `TeeReader::read` for cursor `id` with an `n`-byte caller buffer: serve
from the shared buffer when the cursor is behind its end, otherwise pull from
the source and append the bytes read to the shared buffer for the sibling. -/
def teeRead (id : Bool) (n : Nat) (st : TeeState) : TeeState :=
  let myPos := posOf st id
  let relativeIdx := myPos - st.globalOffset
  if relativeIdx < st.buffer.length then
    let toRead := min n (st.buffer.length - relativeIdx)
    let data := (st.buffer.drop relativeIdx).take toRead
    teeCleanup (pushOut (setPos st id (myPos + toRead)) id data)
  else
    let k := min n (st.src.length - st.consumed)
    let data := (st.src.drop st.consumed).take k
    let st1 := { st with consumed := st.consumed + k }
    let st2 :=
      if 0 < k then
        pushOut (setPos { st1 with buffer := st1.buffer ++ data } id (myPos + k)) id data
      else st1
    teeCleanup st2

/-- Run a whole interleaving of read requests, oldest first. -/
def runTrace (src : List Nat) (trace : List (Bool × Nat)) : TeeState :=
  trace.foldl (fun st q => teeRead q.1 q.2 st) (initTee src)

/-- Invariant tying the shared tee state to the source while both cursors are
live: each output log is exactly the prefix read so far, the buffer holds
exactly the bytes between the two cursors, and the source has been consumed
exactly up to the leading cursor. -/
def TeeInv (src : List Nat) (st : TeeState) : Prop :=
  st.src = src ∧ st.active0 = true ∧ st.active1 = true ∧
  st.out0 = src.take st.pos0 ∧ st.out1 = src.take st.pos1 ∧
  st.globalOffset = min st.pos0 st.pos1 ∧
  st.consumed = max st.pos0 st.pos1 ∧
  st.consumed ≤ src.length ∧
  st.buffer = (src.take st.consumed).drop st.globalOffset

theorem teeInv_init (src : List Nat) : TeeInv src (initTee src) := by
  simp [TeeInv, initTee]

theorem take_drop_take {l : List Nat} {c p t : Nat} (h : p + t ≤ c) :
    ((l.take c).drop p).take t = (l.drop p).take t := by
  rw [List.drop_take, List.take_take, min_eq_left (by omega)]

theorem drop_take_drop {l : List Nat} {c g g' : Nat} (h : g ≤ g') :
    ((l.take c).drop g).drop (g' - g) = (l.take c).drop g' := by
  rw [List.drop_drop]
  congr 1
  omega

theorem teeInv_read (src : List Nat) (st : TeeState) (id : Bool) (n : Nat)
    (h : TeeInv src st) : TeeInv src (teeRead id n st) := by
  obtain ⟨hsrc, ha0, ha1, ho0, ho1, hg, hc, hcl, hb⟩ := h
  have hblen : st.buffer.length = st.consumed - st.globalOffset := by
    rw [hb, List.length_drop, List.length_take]; omega
  have hsl : st.src.length = src.length := by rw [hsrc]
  rw [teeRead]
  dsimp only
  split
  case isTrue hlt =>
    -- serve from the shared buffer
    cases id with
    | false =>
      dsimp only [posOf] at hlt ⊢
      have hple : st.globalOffset ≤ st.pos0 := by rw [hg]; omega
      have hpc : st.pos0 < st.consumed := by omega
      have hp1 : st.consumed = st.pos1 := by omega
      set t := min n (st.buffer.length - (st.pos0 - st.globalOffset)) with ht
      have htle : st.pos0 + t ≤ st.consumed := by omega
      have hdata : (st.buffer.drop (st.pos0 - st.globalOffset)).take t =
          (src.drop st.pos0).take t := by
        rw [hb, List.drop_drop,
          show st.globalOffset + (st.pos0 - st.globalOffset) = st.pos0 by omega,
          take_drop_take (by omega)]
      dsimp only [setPos, pushOut, teeCleanup]
      simp only [ha0, ha1, Bool.and_self, if_true]
      refine ⟨hsrc, rfl, rfl, ?_, ho1, ?_, ?_, ?_, ?_⟩
      · dsimp only
        rw [ho0, hdata, ← List.take_add]
      · dsimp only; omega
      · dsimp only; omega
      · dsimp only; omega
      · dsimp only
        rw [hb, drop_take_drop (by omega)]
        congr 1
        omega
    | true =>
      dsimp only [posOf] at hlt ⊢
      have hple : st.globalOffset ≤ st.pos1 := by rw [hg]; omega
      have hpc : st.pos1 < st.consumed := by omega
      have hp0 : st.consumed = st.pos0 := by omega
      set t := min n (st.buffer.length - (st.pos1 - st.globalOffset)) with ht
      have htle : st.pos1 + t ≤ st.consumed := by omega
      have hdata : (st.buffer.drop (st.pos1 - st.globalOffset)).take t =
          (src.drop st.pos1).take t := by
        rw [hb, List.drop_drop,
          show st.globalOffset + (st.pos1 - st.globalOffset) = st.pos1 by omega,
          take_drop_take (by omega)]
      dsimp only [setPos, pushOut, teeCleanup]
      simp only [ha0, ha1, Bool.and_self, if_true]
      refine ⟨hsrc, rfl, rfl, ho0, ?_, ?_, ?_, ?_, ?_⟩
      · dsimp only
        rw [ho1, hdata, ← List.take_add]
      · dsimp only; omega
      · dsimp only; omega
      · dsimp only; omega
      · dsimp only
        rw [hb, drop_take_drop (by omega)]
        congr 1
        omega
  case isFalse hge =>
    -- caught up: read from the underlying source, append to the shared buffer
    have hctake : src.take st.consumed = (src.take st.consumed).take st.consumed := by
      rw [List.take_take, min_self]
    have hclen : (src.take st.consumed).length = st.consumed := by
      rw [List.length_take]; omega
    cases id with
    | false =>
      dsimp only [posOf] at hge ⊢
      have hple : st.globalOffset ≤ st.pos0 := by rw [hg]; omega
      have hpc : st.pos0 = st.consumed := by omega
      set k := min n (st.src.length - st.consumed) with hk
      have hkle : st.consumed + k ≤ src.length := by rw [hk]; omega
      split
      case isTrue hkpos =>
        dsimp only [setPos, pushOut, teeCleanup]
        simp only [ha0, ha1, Bool.and_self, if_true]
        have hbapp : st.buffer ++ (st.src.drop st.consumed).take k =
            (src.take (st.consumed + k)).drop st.globalOffset := by
          rw [hsrc, hb, List.take_add, List.drop_append_of_le_length (by omega)]
        refine ⟨hsrc, rfl, rfl, ?_, ho1, ?_, ?_, ?_, ?_⟩
        · dsimp only
          rw [ho0, hsrc, hpc, ← List.take_add]
        · dsimp only; omega
        · dsimp only; omega
        · dsimp only; omega
        · dsimp only
          rw [hbapp, drop_take_drop (by omega)]
          congr 1
          omega
      case isFalse hk0 =>
        have hkz : k = 0 := by omega
        dsimp only [teeCleanup]
        simp only [ha0, ha1, Bool.and_self, if_true]
        refine ⟨hsrc, rfl, rfl, ho0, ho1, ?_, ?_, ?_, ?_⟩
        · dsimp only; omega
        · dsimp only; omega
        · dsimp only; omega
        · dsimp only
          rw [hkz, Nat.add_zero, hb, drop_take_drop (by omega)]
          congr 1
          omega
    | true =>
      dsimp only [posOf] at hge ⊢
      have hple : st.globalOffset ≤ st.pos1 := by rw [hg]; omega
      have hpc : st.pos1 = st.consumed := by omega
      set k := min n (st.src.length - st.consumed) with hk
      have hkle : st.consumed + k ≤ src.length := by rw [hk]; omega
      split
      case isTrue hkpos =>
        dsimp only [setPos, pushOut, teeCleanup]
        simp only [ha0, ha1, Bool.and_self, if_true]
        have hbapp : st.buffer ++ (st.src.drop st.consumed).take k =
            (src.take (st.consumed + k)).drop st.globalOffset := by
          rw [hsrc, hb, List.take_add, List.drop_append_of_le_length (by omega)]
        refine ⟨hsrc, rfl, rfl, ho0, ?_, ?_, ?_, ?_, ?_⟩
        · dsimp only
          rw [ho1, hsrc, hpc, ← List.take_add]
        · dsimp only; omega
        · dsimp only; omega
        · dsimp only; omega
        · dsimp only
          rw [hbapp, drop_take_drop (by omega)]
          congr 1
          omega
      case isFalse hk0 =>
        have hkz : k = 0 := by omega
        dsimp only [teeCleanup]
        simp only [ha0, ha1, Bool.and_self, if_true]
        refine ⟨hsrc, rfl, rfl, ho0, ho1, ?_, ?_, ?_, ?_⟩
        · dsimp only; omega
        · dsimp only; omega
        · dsimp only; omega
        · dsimp only
          rw [hkz, Nat.add_zero, hb, drop_take_drop (by omega)]
          congr 1
          omega



theorem teeInv_foldl (src : List Nat) :
    ∀ (trace : List (Bool × Nat)) (st : TeeState), TeeInv src st →
      TeeInv src (trace.foldl (fun s q => teeRead q.1 q.2 s) st) := by
  intro trace
  induction trace with
  | nil => intro st h; exact h
  | cons q rest ih =>
    intro st h
    exact ih _ (teeInv_read src st q.1 q.2 h)

theorem teeInv_runTrace (src : List Nat) (trace : List (Bool × Nat)) :
    TeeInv src (runTrace src trace) :=
  teeInv_foldl src trace (initTee src) (teeInv_init src)

/-- C2: under any interleaving and chunking of reads on the two tee cursors,
each cursor's concatenated output is exactly the prefix of the source it has
advanced over (no byte duplicated or dropped) — in particular a fully advanced
cursor has read exactly the whole source — and the shared buffer length always
equals (hence is bounded by) the distance between the two cursor positions. -/
theorem tee_equivalence (src : List Nat) (trace : List (Bool × Nat)) :
    (runTrace src trace).out0 = src.take (runTrace src trace).pos0 ∧
    (runTrace src trace).out1 = src.take (runTrace src trace).pos1 ∧
    (runTrace src trace).buffer.length =
      max (runTrace src trace).pos0 (runTrace src trace).pos1 -
        min (runTrace src trace).pos0 (runTrace src trace).pos1 ∧
    ((runTrace src trace).pos0 = src.length → (runTrace src trace).out0 = src) ∧
    ((runTrace src trace).pos1 = src.length → (runTrace src trace).out1 = src) := by
  obtain ⟨hsrc, ha0, ha1, ho0, ho1, hg, hc, hcl, hb⟩ := teeInv_runTrace src trace
  refine ⟨ho0, ho1, ?_, ?_, ?_⟩
  · rw [hb, List.length_drop, List.length_take]
    omega
  · intro hp; rw [ho0, hp, List.take_length]
  · intro hp; rw [ho1, hp, List.take_length]

/-- Witness for C2 at a concrete source and interleaving: both cursors, read
with different chunkings, each reproduce the source exactly. -/
theorem tee_equivalence_witness :
    (runTrace [5,6,7] [(false,2),(true,3),(false,2),(true,1)]).out0 = [5,6,7] ∧
    (runTrace [5,6,7] [(false,2),(true,3),(false,2),(true,1)]).out1 = [5,6,7] :=
  ⟨(tee_equivalence [5,6,7] [(false,2),(true,3),(false,2),(true,1)]).2.2.2.1 rfl,
   (tee_equivalence [5,6,7] [(false,2),(true,3),(false,2),(true,1)]).2.2.2.2 rfl⟩



/-- Absolute stream offset the scanner is currently standing on. -/
def scanPos (st : SState) : Nat := st.pos + st.dropHead

/-- Invariant of a `BufSearcher` state relative to the full source `src0`:
the window `buf[dropHead, readHead)` mirrors the source bytes starting at
`pos + dropHead`, exactly `pos + readHead` source bytes have been consumed,
and the cursors are in range. -/
def Inv (src0 : List Nat) (st : SState) : Prop :=
  st.buf.length = SEARCH_MAX ∧
  st.dropHead ≤ st.readHead ∧
  st.readHead ≤ SEARCH_MAX ∧
  st.pos + st.readHead ≤ src0.length ∧
  st.src = src0.drop (st.pos + st.readHead) ∧
  (st.buf.drop st.dropHead).take (st.readHead - st.dropHead) =
    (src0.drop (st.pos + st.dropHead)).take (st.readHead - st.dropHead)

theorem inv_init (src0 : List Nat) : Inv src0 (initSState src0) := by
  refine ⟨by simp [initSState], by simp [initSState], by simp [initSState],
    by simp [initSState], by simp [initSState], ?_⟩
  simp [initSState]

theorem inv_compress {src0 : List Nat} {st : SState} (h : Inv src0 st) :
    Inv src0 (compress st) ∧
      (compress st).pos + (compress st).dropHead = scanPos st ∧
      (compress st).dropHead = 0 ∧
      (compress st).readHead = st.readHead - st.dropHead ∧
      (compress st).pos + (compress st).readHead = st.pos + st.readHead := by
  obtain ⟨hlen, hdr, hrc, hcl, hsrc, hw⟩ := h
  have hwlen : ((st.buf.drop st.dropHead).take (st.readHead - st.dropHead)).length =
      st.readHead - st.dropHead := by
    rw [List.length_take, List.length_drop, hlen]; omega
  constructor
  · refine ⟨?_, by simp [compress], ?_, ?_, ?_, ?_⟩
    · simp only [compress, List.length_append, List.length_take, List.length_drop, hlen]
      omega
    · simp only [compress]; omega
    · simp only [compress]; omega
    · simp only [compress, hsrc]; congr 1; omega
    · simp only [compress, List.drop_zero, Nat.sub_zero]
      rw [List.take_append_of_le_length (by omega), List.take_take, min_self, hw]
      congr 1
  · exact ⟨by simp [compress, scanPos], by simp [compress], by simp [compress],
      by simp [compress]; omega⟩

theorem inv_readSource {src0 : List Nat} {st : SState} (h : Inv src0 st) :
    Inv src0 (readSource st) ∧
      (readSource st).pos = st.pos ∧
      (readSource st).dropHead = st.dropHead ∧
      (readSource st).lastLineStart = st.lastLineStart ∧
      (readSource st).readHead =
        st.readHead + min (SEARCH_MAX - st.readHead) (src0.length - (st.pos + st.readHead)) := by
  obtain ⟨hlen, hdr, hrc, hcl, hsrc, hw⟩ := h
  have hsl : st.src.length = src0.length - (st.pos + st.readHead) := by
    rw [hsrc, List.length_drop]
  set n := min (SEARCH_MAX - st.readHead) st.src.length with hn
  have hn2 : n = min (SEARCH_MAX - st.readHead) (src0.length - (st.pos + st.readHead)) := by
    rw [hn, hsl]
  have hchunk : st.src.take n = (src0.drop (st.pos + st.readHead)).take n := by rw [hsrc]
  have hchlen : (st.src.take n).length = n := by
    rw [List.length_take]; omega
  constructor
  · refine ⟨?_, by simp only [readSource]; omega, by simp only [readSource]; omega,
      by simp only [readSource]; omega, ?_, ?_⟩
    · simp only [readSource, List.length_append, List.length_take, List.length_drop, hlen]
      omega
    · simp only [readSource]
      rw [hsrc, List.drop_drop]
      congr 1
      omega
    · simp only [readSource]
      have hmid : (st.buf.take st.readHead ++ (st.src.take n ++
          st.buf.drop (st.readHead + n))).drop st.dropHead =
          (st.buf.take st.readHead).drop st.dropHead ++
            (st.src.take n ++ st.buf.drop (st.readHead + n)) := by
        apply List.drop_append_of_le_length
        rw [List.length_take]; omega
      rw [List.append_assoc] at *
      rw [hmid]
      have hlft : ((st.buf.take st.readHead).drop st.dropHead).length =
          st.readHead - st.dropHead := by
        rw [List.length_drop, List.length_take]; omega
      have hsplit : st.readHead + n - st.dropHead = (st.readHead - st.dropHead) + n := by omega
      rw [hsplit]
      rw [← hlft, List.take_append, hlft]
      rw [List.take_append_of_le_length (by omega), List.take_take, min_self]
      rw [List.take_add]
      congr 1
      · rw [List.drop_take, hw]
      · rw [hchunk, List.drop_drop]
        congr 2
        omega
  · exact ⟨by simp [readSource], by simp [readSource], by simp [readSource],
      by simp only [readSource]; omega⟩



theorem maxlen_single (p : List Nat) : maximumMatchLength [p] = p.length := by
  simp [maximumMatchLength]

theorem minlen_single (p : List Nat) : minimumMatchLength [p] = p.length := by
  simp [minimumMatchLength]

/-- After `fill_buffer` with a single pattern that fits the buffer, the window
holds at least `min p.length (remaining source from the scan position)`. -/
theorem inv_fill_single {src0 p : List Nat} {st : SState}
    (h : Inv src0 st) (hcap : p.length ≤ SEARCH_MAX) :
    Inv src0 (fillBuffer [p] st) ∧
      scanPos (fillBuffer [p] st) = scanPos st ∧
      (fillBuffer [p] st).lastLineStart = st.lastLineStart ∧
      min p.length (src0.length - scanPos st) ≤
        (fillBuffer [p] st).readHead - (fillBuffer [p] st).dropHead := by
  obtain ⟨hlen, hdr, hrc, hcl, hsrc, hw⟩ := h
  by_cases hfill : maximumMatchLength [p] > st.readHead - st.dropHead
  · by_cases hcomp : st.readHead + (maximumMatchLength [p] - (st.readHead - st.dropHead)) ≥
        SEARCH_MAX
    · rw [fillBuffer_compress_read hfill hcomp]
      obtain ⟨hic, hsc, hdc, hrc2, hcc⟩ := inv_compress ⟨hlen, hdr, hrc, hcl, hsrc, hw⟩
      obtain ⟨hir, hp2, hd2, hl2, hr2⟩ := inv_readSource hic
      refine ⟨hir, ?_, ?_, ?_⟩
      · simp only [scanPos] at *
        omega
      · exact hl2.trans rfl
      · rw [maxlen_single] at hfill hcomp
        have hpc : (compress st).pos = st.pos + st.dropHead := by omega
        simp only [scanPos] at *
        rw [hr2, hd2, hrc2, hdc, hpc]
        omega
    · rw [fillBuffer_read hfill (by omega)]
      obtain ⟨hir, hp2, hd2, hl2, hr2⟩ := inv_readSource ⟨hlen, hdr, hrc, hcl, hsrc, hw⟩
      refine ⟨hir, ?_, ?_, ?_⟩
      · simp only [scanPos]; omega
      · exact hl2
      · rw [maxlen_single] at hfill hcomp
        simp only [scanPos] at *
        omega
  · rw [fillBuffer_skip hfill]
    rw [maxlen_single] at hfill
    refine ⟨⟨hlen, hdr, hrc, hcl, hsrc, hw⟩, rfl, rfl, ?_⟩
    simp only [scanPos]
    omega



theorem inv_dropBytes {src0 : List Nat} :
    ∀ (n : Nat) (st : SState), Inv src0 st → st.dropHead + n ≤ st.readHead →
      ∃ st', dropBytes n st = .ok st' ∧ Inv src0 st' ∧
        st'.pos = st.pos ∧ st'.dropHead = st.dropHead + n ∧
        st'.readHead = st.readHead ∧ st'.buf = st.buf ∧ st'.src = st.src := by
  intro n
  induction n with
  | zero =>
    intro st h hn
    exact ⟨st, rfl, h, rfl, by omega, rfl, rfl, rfl⟩
  | succ m ih =>
    intro st h hn
    obtain ⟨hlen, hdr, hrc, hcl, hsrc, hw⟩ := h
    have hlt : st.dropHead < SEARCH_MAX := by omega
    have hstep : Inv src0 { st with
        lastLineStart := if st.buf.getD st.dropHead 0 = 10 then 0 else st.lastLineStart + 1,
        dropHead := st.dropHead + 1 } := by
      refine ⟨hlen, by dsimp only; omega, hrc, hcl, hsrc, ?_⟩
      dsimp only
      have hcg := congrArg (List.drop 1) hw
      rw [List.drop_take, List.drop_take, List.drop_drop, List.drop_drop] at hcg
      rw [show st.readHead - (st.dropHead + 1) = st.readHead - st.dropHead - 1 by omega]
      rw [show st.pos + (st.dropHead + 1) = st.pos + st.dropHead + 1 by omega]
      exact hcg
    obtain ⟨st', heq, hinv, hpos, hdh, hrh, hbuf, hsrc'⟩ :=
      ih _ hstep (by dsimp only; omega)
    refine ⟨st', ?_, hinv, hpos, by rw [hdh]; dsimp only; omega, hrh, hbuf, hsrc'⟩
    rw [dropBytes]
    rw [if_pos hlt]
    exact heq

theorem matchBuffer_single {src0 p r : List Nat} {st : SState} (h : Inv src0 st)
    (hplen : p.length ≤ st.readHead - st.dropHead) :
    matchBuffer [p] r st =
      .ok (if (src0.drop (scanPos st)).take p.length = p
           then some [⟨scanPos st, p.length, r⟩] else none) := by
  obtain ⟨hlen, hdr, hrc, hcl, hsrc, hw⟩ := h
  have hslice : (st.buf.drop (st.dropHead + 0)).take p.length =
      (src0.drop (scanPos st)).take p.length := by
    rw [Nat.add_zero]
    rw [show (st.buf.drop st.dropHead).take p.length =
        ((st.buf.drop st.dropHead).take (st.readHead - st.dropHead)).take p.length by
      rw [List.take_take, min_eq_left hplen]]
    rw [hw, List.take_take, min_eq_left hplen]
    rfl
  simp only [matchBuffer, matchOnePattern]
  rw [if_neg (by omega), hslice]
  by_cases hm : (src0.drop (scanPos st)).take p.length = p
  · rw [if_pos hm, if_pos hm]
    simp only [matchRest, scanPos, Nat.add_zero]
  · rw [if_neg hm, if_neg hm]



/-- Spec-side scanner: positions of the leftmost non-overlapping occurrences
of pattern `p` in `src`, scanning from position `s` and advancing by the
pattern length over each match. -/
def naiveScan (p src : List Nat) (s : Nat) : List Nat :=
  if _h : p.length = 0 then []
  else if _hs : src.length < s + p.length then []
  else if (src.drop s).take p.length = p then
    s :: naiveScan p src (s + p.length)
  else naiveScan p src (s + 1)
termination_by src.length + 1 - s
decreasing_by
  · omega
  · omega

theorem naiveScan_ge {p src : List Nat} :
    ∀ {s q : Nat}, q ∈ naiveScan p src s → s ≤ q := by
  intro s
  induction s using naiveScan.induct p src with
  | case1 s h =>
    intro q hq
    rw [naiveScan, dif_pos h] at hq
    cases hq
  | case2 s h hs =>
    intro q hq
    rw [naiveScan, dif_neg h, dif_pos hs] at hq
    cases hq
  | case3 s h hs hm ih =>
    intro q hq
    rw [naiveScan, dif_neg h, dif_neg hs, if_pos hm] at hq
    rcases List.mem_cons.mp hq with rfl | hq'
    · omega
    · have := ih hq'
      omega
  | case4 s h hs hm ih =>
    intro q hq
    rw [naiveScan, dif_neg h, dif_neg hs, if_neg hm] at hq
    have := ih hq
    omega



/-- Spec-side replacement function: replace every leftmost non-overlapping
occurrence of `p` by `r`, leaving every byte outside the matched spans
unchanged (the specification's "non-overlap completeness" description). -/
def naiveReplace (p r : List Nat) : List Nat → List Nat
  | [] => []
  | a :: rest =>
    if 0 < p.length ∧ (a :: rest).take p.length = p then
      r ++ naiveReplace p r (rest.drop (p.length - 1))
    else a :: naiveReplace p r rest
termination_by l => l.length
decreasing_by
  · simp only [List.length_drop, List.length_cons]; omega
  · simp only [List.length_cons]; omega

theorem nr_short {p r : List Nat} : ∀ {l : List Nat}, l.length < p.length →
    naiveReplace p r l = l := by
  intro l
  induction l with
  | nil => intro _; rw [naiveReplace]
  | cons a rest ih =>
    intro hl
    rw [naiveReplace]
    rw [if_neg ?_]
    · rw [ih (by simp only [List.length_cons] at hl; omega)]
    · rintro ⟨hp, htake⟩
      have := congrArg List.length htake
      rw [List.length_take, List.length_cons] at this
      simp only [List.length_cons] at hl
      omega

theorem drop_cons_self {src : List Nat} {s : Nat} (h : s < src.length) :
    src.drop s = src.getD s 0 :: src.drop (s + 1) := by
  rw [List.drop_eq_getElem_cons h]
  congr 1
  rw [List.getD_eq_getElem?_getD, List.getElem?_eq_getElem h]
  rfl

theorem naiveScan_cons {p src : List Nat} : ∀ {s q : Nat} {tl : List Nat},
    naiveScan p src s = q :: tl →
    (src.drop q).take p.length = p ∧ q + p.length ≤ src.length ∧
      tl = naiveScan p src (q + p.length) := by
  intro s
  induction s using naiveScan.induct p src with
  | case1 s h =>
    intro q tl hq
    rw [naiveScan, dif_pos h] at hq
    cases hq
  | case2 s h hs =>
    intro q tl hq
    rw [naiveScan, dif_neg h, dif_pos hs] at hq
    cases hq
  | case3 s h hs hm ih =>
    intro q tl hq
    rw [naiveScan, dif_neg h, dif_neg hs, if_pos hm] at hq
    obtain ⟨rfl, rfl⟩ : s = q ∧ naiveScan p src (s + p.length) = tl := by
      cases hq; exact ⟨rfl, rfl⟩
    exact ⟨hm, by omega, rfl⟩
  | case4 s h hs hm ih =>
    intro q tl hq
    rw [naiveScan, dif_neg h, dif_neg hs, if_neg hm] at hq
    exact ih hq



theorem nr_nil {p r src : List Nat} (hp : ¬ p.length = 0) : ∀ {s : Nat},
    naiveScan p src s = [] → naiveReplace p r (src.drop s) = src.drop s := by
  intro s
  induction s using naiveScan.induct p src with
  | case1 s h => exact fun _ => absurd h hp
  | case2 s h hs =>
    intro _
    apply nr_short
    rw [List.length_drop]
    omega
  | case3 s h hs hm ih =>
    intro hq
    rw [naiveScan, dif_neg h, dif_neg hs, if_pos hm] at hq
    cases hq
  | case4 s h hs hm ih =>
    intro hq
    rw [naiveScan, dif_neg h, dif_neg hs, if_neg hm] at hq
    have hlt : s < src.length := by omega
    have hm' : ¬ (src.getD s 0 :: src.drop (s + 1)).take p.length = p := by
      rw [← drop_cons_self hlt]; exact hm
    rw [drop_cons_self hlt, naiveReplace, if_neg (by rintro ⟨_, hc⟩; exact hm' hc)]
    rw [ih hq]

theorem nr_skip {p r src : List Nat} (hp : ¬ p.length = 0) : ∀ {s q : Nat} {tl : List Nat},
    naiveScan p src s = q :: tl →
    naiveReplace p r (src.drop s) =
      (src.drop s).take (q - s) ++ r ++ naiveReplace p r (src.drop (q + p.length)) := by
  intro s
  induction s using naiveScan.induct p src with
  | case1 s h => intro q tl hq; exact absurd h hp
  | case2 s h hs =>
    intro q tl hq
    rw [naiveScan, dif_neg h, dif_pos hs] at hq
    cases hq
  | case3 s h hs hm ih =>
    intro q tl hq
    rw [naiveScan, dif_neg h, dif_neg hs, if_pos hm] at hq
    obtain ⟨rfl, -⟩ : s = q ∧ naiveScan p src (s + p.length) = tl := by
      cases hq; exact ⟨rfl, rfl⟩
    have hlt : s < src.length := by omega
    have hm' : (src.getD s 0 :: src.drop (s + 1)).take p.length = p := by
      rw [← drop_cons_self hlt]; exact hm
    rw [drop_cons_self hlt, naiveReplace, if_pos ⟨by omega, hm'⟩]
    rw [Nat.sub_self, List.take_zero, List.nil_append]
    congr 2
    rw [List.drop_drop]
    congr 1
    omega
  | case4 s h hs hm ih =>
    intro q tl hq
    rw [naiveScan, dif_neg h, dif_neg hs, if_neg hm] at hq
    have hge : s + 1 ≤ q := naiveScan_ge (hq ▸ List.mem_cons_self q tl)
    have hlt : s < src.length := by omega
    have hm' : ¬ (src.getD s 0 :: src.drop (s + 1)).take p.length = p := by
      rw [← drop_cons_self hlt]; exact hm
    rw [drop_cons_self hlt, naiveReplace, if_neg (by rintro ⟨_, hc⟩; exact hm' hc)]
    rw [ih hq]
    rw [show q - s = (q - (s + 1)) + 1 by omega]
    rw [List.take_succ_cons]
    rfl



theorem scanPos_le {src0 : List Nat} {st : SState} (h : Inv src0 st) :
    scanPos st ≤ src0.length := by
  obtain ⟨_, hdr, _, hcl, _, _⟩ := h
  simp only [scanPos]
  omega

/-- One `read_diffs` call of a single-pattern scan, related to `naiveScan`:
it returns `none` exactly when no occurrence remains, and otherwise emits the
singleton batch for the leftmost occurrence, leaving the scanner standing just
past it. -/
theorem readDiffs_single {p r src0 : List Nat} (hp : ¬ p.length = 0)
    (hcap : p.length ≤ SEARCH_MAX) :
    ∀ (fuel : Nat) (st : SState), Inv src0 st →
      src0.length + 1 - scanPos st ≤ fuel →
      (naiveScan p src0 (scanPos st) = [] →
        ∃ st', readDiffs [p] r fuel st = .ok (none, st')) ∧
      (∀ (q : Nat) (tl : List Nat), naiveScan p src0 (scanPos st) = q :: tl →
        ∃ st', readDiffs [p] r fuel st = .ok (some [⟨q, p.length, r⟩], st') ∧
          Inv src0 st' ∧ scanPos st' = q + p.length) := by
  intro fuel
  induction fuel with
  | zero =>
    intro st hinv hf
    have := scanPos_le hinv
    omega
  | succ f ih =>
    intro st hinv hf
    have hsle := scanPos_le hinv
    obtain ⟨hfillInv, hfillPos, hfillLls, hfillMin⟩ := inv_fill_single hinv hcap
    have hs1le := scanPos_le hfillInv
    have hrem_le : (fillBuffer [p] st).readHead - (fillBuffer [p] st).dropHead ≤
        src0.length - scanPos st := by
      obtain ⟨_, hdr1, _, hcl1, _, _⟩ := hfillInv
      simp only [scanPos] at hfillPos ⊢
      omega
    by_cases hstop : minimumMatchLength [p] >
        (fillBuffer [p] st).readHead - (fillBuffer [p] st).dropHead
    · -- end of stream: fewer than p.length bytes remain anywhere
      have hshort : src0.length < scanPos st + p.length := by
        rw [minlen_single] at hstop
        omega
      have hscan : naiveScan p src0 (scanPos st) = [] := by
        rw [naiveScan, dif_neg hp, dif_pos hshort]
      refine ⟨fun _ => ⟨fillBuffer [p] st, readDiffs_stop (by omega) hstop⟩, ?_⟩
      intro q tl hq
      rw [hscan] at hq
      cases hq
    · push_neg at hstop
      rw [minlen_single] at hstop
      have hnotshort : ¬ src0.length < scanPos st + p.length := by omega
      have hmatch := matchBuffer_single (r := r) hfillInv hstop
      rw [hfillPos] at hmatch
      by_cases hm : (src0.drop (scanPos st)).take p.length = p
      · -- a match at the scan position
        rw [if_pos hm] at hmatch
        obtain ⟨st2, hdropeq, hinv2, hpos2, hdh2, hrh2, hbuf2, hsrc2⟩ :=
          inv_dropBytes p.length (fillBuffer [p] st) hfillInv (by omega)
        have hpos2' : scanPos st2 = scanPos st + p.length := by
          simp only [scanPos] at hfillPos ⊢
          omega
        have hrun : readDiffs [p] r (f + 1) st =
            .ok (some [⟨scanPos st, p.length, r⟩], st2) := by
          rw [readDiffs]
          try dsimp only
          rw [if_neg (by rw [minlen_single]; omega), hmatch]
          show (match dropBytes (([p]).headD []).length (fillBuffer [p] st) with
            | Except.error e => Except.error e
            | Except.ok st2 =>
                Except.ok (some [(⟨scanPos st, p.length, r⟩ : Diff)], st2)) = _
          rw [show ([p].headD []).length = p.length from rfl, hdropeq]
        have hscan : naiveScan p src0 (scanPos st) =
            scanPos st :: naiveScan p src0 (scanPos st + p.length) := by
          conv_lhs => rw [naiveScan]
          rw [dif_neg hp, dif_neg hnotshort, if_pos hm]
        constructor
        · intro hnil
          rw [hscan] at hnil
          cases hnil
        · intro q tl hq
          rw [hscan] at hq
          have hq1 : scanPos st = q := by cases hq; rfl
          exact ⟨st2, hq1 ▸ hrun, hinv2, by omega⟩
      · -- no match: advance one byte and continue
        rw [if_neg hm] at hmatch
        obtain ⟨st2, hdropeq, hinv2, hpos2, hdh2, hrh2, hbuf2, hsrc2⟩ :=
          inv_dropBytes 1 (fillBuffer [p] st) hfillInv (by omega)
        have hpos2' : scanPos st2 = scanPos st + 1 := by
          simp only [scanPos] at hfillPos ⊢
          omega
        have hrun : ∀ res, readDiffs [p] r f st2 = res → readDiffs [p] r (f + 1) st = res := by
          intro res hres
          rw [readDiffs]
          try dsimp only
          rw [if_neg (by rw [minlen_single]; omega), hmatch]
          show (match dropBytes 1 (fillBuffer [p] st) with
            | Except.error e => Except.error e
            | Except.ok st2 => readDiffs [p] r f st2) = res
          rw [hdropeq]
          exact hres
        have hscan : naiveScan p src0 (scanPos st) = naiveScan p src0 (scanPos st + 1) := by
          conv_lhs => rw [naiveScan]
          rw [dif_neg hp, dif_neg hnotshort, if_neg hm]
        obtain ⟨ihnil, ihcons⟩ := ih st2 hinv2 (by omega)
        constructor
        · intro hnil
          obtain ⟨st', h'⟩ := ihnil (by rw [hpos2', ← hscan]; exact hnil)
          exact ⟨st', hrun _ h'⟩
        · intro q tl hq
          obtain ⟨st', h', hi', hp'⟩ := ihcons q tl (by rw [hpos2', ← hscan]; exact hq)
          exact ⟨st', hrun _ h', hi', hp'⟩



theorem nextDiff_single {p r src0 : List Nat} (hp : ¬ p.length = 0)
    (hcap : p.length ≤ SEARCH_MAX) {st : SState} (hinv : Inv src0 st) :
    (naiveScan p src0 (scanPos st) = [] →
      ∃ st', nextDiff [p] r [] st = .ok (none, [], st')) ∧
    (∀ (q : Nat) (tl : List Nat), naiveScan p src0 (scanPos st) = q :: tl →
      ∃ st', nextDiff [p] r [] st = .ok (some ⟨q, p.length, r⟩, [], st') ∧
        Inv src0 st' ∧ scanPos st' = q + p.length) := by
  have hfuel : src0.length + 1 - scanPos st ≤ rdFuel st := by
    obtain ⟨_, hdr, hrc, hcl, hsrc, _⟩ := hinv
    have : st.src.length = src0.length - (st.pos + st.readHead) := by
      rw [hsrc, List.length_drop]
    simp only [rdFuel, scanPos]
    omega
  obtain ⟨hnil, hcons⟩ := readDiffs_single hp hcap (rdFuel st) st hinv hfuel
  constructor
  · intro hscan
    obtain ⟨st', h'⟩ := hnil hscan
    refine ⟨st', ?_⟩
    rw [nextDiff]
    simp only [popMin]
    rw [h']
  · intro q tl hscan
    obtain ⟨st', h', hi', hs'⟩ := hcons q tl hscan
    refine ⟨st', ?_, hi', hs'⟩
    rw [nextDiff]
    simp only [popMin]
    rw [h']
    rfl

theorem replaceLoop_step {ps : List (List Nat)} {repl source : List Nat}
    {fuel pos : Nat} {ready ready' : List Diff} {st st' : SState} {d : Diff}
    (h : nextDiff ps repl ready st = .ok (some d, ready', st'))
    (h1 : ¬ d.pos < pos) (h2 : ¬ source.length < pos + (d.pos - pos))
    (h3 : ¬ source.length < d.pos + d.remove) :
    replaceLoop ps repl source (fuel + 1) ready st pos =
      match replaceLoop ps repl source fuel ready' st' (d.pos + d.remove) with
      | .error e => .error e
      | .ok out => .ok ((source.drop pos).take (d.pos - pos) ++ d.add ++ out) := by
  rw [replaceLoop, h]
  try dsimp only
  rw [if_neg h1, if_neg h2, if_neg h3]

theorem replaceLoop_single {p r src0 : List Nat} (hp : ¬ p.length = 0)
    (hcap : p.length ≤ SEARCH_MAX) :
    ∀ (fuel : Nat) (st : SState) (pos : Nat), Inv src0 st → scanPos st = pos →
      (naiveScan p src0 pos).length < fuel →
      replaceLoop [p] r src0 fuel [] st pos = .ok (naiveReplace p r (src0.drop pos)) := by
  intro fuel
  induction fuel with
  | zero =>
    intro st pos _ _ hl
    omega
  | succ f ih =>
    intro st pos hinv hpos hl
    obtain ⟨hnil, hcons⟩ := nextDiff_single (r := r) hp hcap hinv
    cases hscan : naiveScan p src0 pos with
    | nil =>
      obtain ⟨st', h'⟩ := hnil (by rw [hpos, hscan])
      rw [replaceLoop_done (by omega) h']
      rw [nr_nil hp hscan]
    | cons q tl =>
      obtain ⟨st', h', hi', hs'⟩ := hcons q tl (by rw [hpos, hscan])
      obtain ⟨hm, hqlen, htl⟩ := naiveScan_cons hscan
      have hge : pos ≤ q := naiveScan_ge (hscan ▸ List.mem_cons_self q tl)
      rw [replaceLoop_step h' (by dsimp only; omega) (by dsimp only; omega)
        (by dsimp only; omega)]
      rw [ih st' (q + p.length) hi' hs' (by
        rw [← htl]
        rw [hscan] at hl
        simp only [List.length_cons] at hl
        omega)]
      rw [nr_skip hp hscan]

/-- Bound on the number of matches. -/
theorem naiveScan_length {p src : List Nat} :
    ∀ {s : Nat}, (naiveScan p src s).length ≤ src.length + 1 - s := by
  intro s
  induction s using naiveScan.induct p src with
  | case1 s h => rw [naiveScan, dif_pos h]; simp
  | case2 s h hs => rw [naiveScan, dif_neg h, dif_pos hs]; simp
  | case3 s h hs hm ih =>
    rw [naiveScan, dif_neg h, dif_neg hs, if_pos hm]
    simp only [List.length_cons]
    omega
  | case4 s h hs hm ih =>
    rw [naiveScan, dif_neg h, dif_neg hs, if_neg hm]
    omega

/-- C1 (amended): for a single non-empty pattern that fits the scan buffer,
`replace_stream` succeeds and produces exactly the spec-side replacement:
every leftmost non-overlapping occurrence replaced once, all other bytes
copied through unchanged. -/
theorem replaceStream_single (p r input : List Nat) (hp : 0 < p.length)
    (hcap : p.length ≤ SEARCH_MAX) :
    replaceStream [p] r input = .ok (naiveReplace p r input) := by
  have hl : (naiveScan p input 0).length < input.length + 2 := by
    have := @naiveScan_length p input 0
    omega
  have hmain := replaceLoop_single (r := r) (by omega) hcap (input.length + 2)
    (initSState input) 0 (inv_init input) (by simp [scanPos, initSState]) hl
  rw [replaceStream, hmain, List.drop_zero]



/-- Pattern `p` occurs literally somewhere in `l`. -/
def occursIn (p l : List Nat) : Prop :=
  ∃ s, s + p.length ≤ l.length ∧ (l.drop s).take p.length = p

theorem naiveScan_nil_of_no_occur {p src : List Nat} (h : ¬ occursIn p src) :
    ∀ {s : Nat}, naiveScan p src s = [] := by
  intro s
  induction s using naiveScan.induct p src with
  | case1 s hz => rw [naiveScan, dif_pos hz]
  | case2 s hz hs => rw [naiveScan, dif_neg hz, dif_pos hs]
  | case3 s hz hs hm ih => exact absurd ⟨s, by omega, hm⟩ h
  | case4 s hz hs hm ih => rw [naiveScan, dif_neg hz, dif_neg hs, if_neg hm]; exact ih

/-- C8 (amended): for a single non-empty pattern that fits the scan buffer,
an input with no occurrence of the pattern passes through `replace_stream`
byte-for-byte unchanged. -/
theorem replaceStream_no_match (p r input : List Nat) (hp : 0 < p.length)
    (hcap : p.length ≤ SEARCH_MAX) (hno : ¬ occursIn p input) :
    replaceStream [p] r input = .ok input := by
  rw [replaceStream_single p r input hp hcap]
  have h0 := @nr_nil p r input (by omega) 0
    (naiveScan_nil_of_no_occur hno (s := 0))
  rw [List.drop_zero] at h0
  rw [h0]

/-- Witness for the amended C8 at `p = "b"`, input `"aca"`. -/
theorem replaceStream_no_match_witness :
    replaceStream [[98]] [99] [97, 99, 97] = .ok [97, 99, 97] :=
  replaceStream_no_match [98] [99] [97, 99, 97] (by decide) (by decide)
    (by rintro ⟨s, hs, hm⟩
        have hs3 : s ≤ 2 := by
          simp only [List.length_cons, List.length_nil] at hs
          omega
        interval_cases s <;> simp_all)

/-- Witness for the amended C1: `"a c a"` with `a → b` becomes `"b c b"`. -/
theorem replaceStream_single_witness :
    replaceStream [[97]] [98] [97, 32, 99, 32, 97] =
      .ok (naiveReplace [97] [98] [97, 32, 99, 32, 97]) ∧
    naiveReplace [97] [98] [97, 32, 99, 32, 97] = [98, 32, 99, 32, 98] :=
  ⟨replaceStream_single [97] [98] [97, 32, 99, 32, 97] (by decide) (by decide),
   by simp [naiveReplace]⟩



set_option maxRecDepth 8000

/-- C1 counterexample: for the two-pattern sequence `["a","a"]` on input
`"a\na\na"`, the overlapping block groups make `replace_stream` reach the
`diff.pos - self.pos` underflow in `Replacer::replace_next_diff` and panic
(debug semantics), so no output is produced at all — refuting the claim for
multi-pattern sequences. -/
theorem c1_counterexample :
    replaceStream [[97], [97]] [98] [97, 10, 97, 10, 97] = .error .subUnderflow := by
  rfl

/-- C3 counterexample record: the fully drained diff sequence for `["a","a"]`
on `"a\na\na"` is `(0,1), (2,1), (2,1), (4,1)` — not strictly increasing, and
`pos[1] + remove[1] = 3 > 2 = pos[2]` violates non-overlap. -/
theorem c3_drained_diffs :
    (drainDiffs [[97], [97]] [98] 100 [] (initSState [97, 10, 97, 10, 97])).toOption.map
        Prod.fst =
      some [⟨0, 1, [98]⟩, ⟨2, 1, [98]⟩, ⟨2, 1, [98]⟩, ⟨4, 1, [98]⟩] ∧
    ¬ List.Chain' (fun a b : Diff => a.pos + a.remove ≤ b.pos)
        [⟨0, 1, [98]⟩, ⟨2, 1, [98]⟩, ⟨2, 1, [98]⟩, ⟨4, 1, [98]⟩] ∧
    ¬ List.Chain' (fun a b : Diff => a.pos < b.pos)
        [⟨0, 1, [98]⟩, ⟨2, 1, [98]⟩, ⟨2, 1, [98]⟩, ⟨4, 1, [98]⟩] :=
  ⟨by rfl, by simp [List.chain'_cons], by simp [List.chain'_cons]⟩

/-- C10 failing-input record: on `["x","x"]` over `"x\nx\nx"` the replacer
reaches a diff whose `pos` is behind its output cursor, so the gap
subtraction `diff.pos - self.pos` underflows: a panic, not a clean run. -/
theorem c10_panic_eval :
    replaceStream [[120], [120]] [121] [120, 10, 120, 10, 120] = .error .subUnderflow := by
  rfl

/-- C8 counterexample: pattern sequence `["a","\x00"]` on input `"za\nz"`,
which contains no NUL byte and hence no occurrence of the sequence.  The
scanner matches the second pattern against a never-written zero byte of the
scan buffer beyond `read_head`, emits a phantom diff at position 4 (the end of
the stream), and the replacer fails with an unexpected-EOF `IoError` instead
of reproducing the input. -/
theorem c8_counterexample :
    replaceStream [[97], [0]] [82] [122, 97, 10, 122] = .error .ioEof ∧
    ¬ occursIn [0] [122, 97, 10, 122] := by
  refine ⟨by rfl, ?_⟩
  rintro ⟨s, hs, hm⟩
  have hs3 : s ≤ 3 := by
    simp only [List.length_cons, List.length_nil] at hs
    omega
  interval_cases s <;> simp_all

/-- C4 counterexample: with pattern sequence `["a","b"]`, an input whose block
group sits at column 121 (`121 > COLUMN_MAX = 120`) — line 1 is 121 `q`s then
`a`, line 2 is 121 `q`s then `b` — is still matched and both diffs are
emitted, refuting the claimed `COLUMN_MAX` bound on match positions. -/
theorem c4_counterexample :
    (drainDiffs [[97], [98]] [82] 400 []
        (initSState (List.replicate 121 113 ++ [97, 10] ++
          List.replicate 121 113 ++ [98]))).toOption.map Prod.fst =
      some [⟨121, 1, [82]⟩, ⟨244, 1, [82]⟩] ∧
    COLUMN_MAX < 121 := by
  exact ⟨by rfl, by decide⟩



theorem min_le_max (ps : List (List Nat)) :
    minimumMatchLength ps ≤ maximumMatchLength ps := by
  simp only [minimumMatchLength, maximumMatchLength]
  have h : ps.length - 1 ≤ (ps.length - 1) * COLUMN_MAX :=
    Nat.le_mul_of_pos_right _ (by norm_num [COLUMN_MAX])
  omega

theorem dropBytes_spec : ∀ (n : Nat) (st st' : SState), dropBytes n st = .ok st' →
    st'.pos = st.pos ∧ st'.buf = st.buf ∧ st'.readHead = st.readHead ∧
    st'.dropHead = st.dropHead + n ∧ st'.src = st.src := by
  intro n
  induction n with
  | zero =>
    intro st st' h
    rw [dropBytes] at h
    cases h
    exact ⟨rfl, rfl, rfl, by omega, rfl⟩
  | succ m ih =>
    intro st st' h
    rw [dropBytes] at h
    split at h
    · obtain ⟨h1, h2, h3, h4, h5⟩ := ih _ _ h
      exact ⟨h1, h2, h3, by rw [h4]; dsimp only; omega, h5⟩
    · cases h

theorem fill_stop_src_nil {ps : List (List Nat)} {st : SState}
    (hminS : minimumMatchLength ps ≤ SEARCH_MAX)
    (hdr : st.dropHead ≤ st.readHead) (hrS : st.readHead ≤ SEARCH_MAX)
    (hstop : minimumMatchLength ps >
      (fillBuffer ps st).readHead - (fillBuffer ps st).dropHead) :
    (fillBuffer ps st).src = [] := by
  have hmm := min_le_max ps
  by_cases hfill : maximumMatchLength ps > st.readHead - st.dropHead
  · by_cases hcomp : st.readHead + (maximumMatchLength ps - (st.readHead - st.dropHead)) ≥
        SEARCH_MAX
    · rw [fillBuffer_compress_read hfill hcomp] at hstop ⊢
      simp only [readSource, compress] at hstop ⊢
      rw [List.drop_eq_nil_iff]
      omega
    · rw [fillBuffer_read hfill hcomp] at hstop ⊢
      simp only [readSource] at hstop ⊢
      rw [List.drop_eq_nil_iff]
      omega
  · rw [fillBuffer_skip hfill] at hstop
    omega

theorem fill_J {ps : List (List Nat)} {st : SState}
    (hdr : st.dropHead ≤ st.readHead) (hrS : st.readHead ≤ SEARCH_MAX) :
    (fillBuffer ps st).dropHead ≤ (fillBuffer ps st).readHead ∧
      (fillBuffer ps st).readHead ≤ SEARCH_MAX := by
  by_cases hfill : maximumMatchLength ps > st.readHead - st.dropHead
  · by_cases hcomp : st.readHead + (maximumMatchLength ps - (st.readHead - st.dropHead)) ≥
        SEARCH_MAX
    · rw [fillBuffer_compress_read hfill hcomp]
      simp only [readSource, compress]
      omega
    · rw [fillBuffer_read hfill hcomp]
      simp only [readSource]
      omega
  · rw [fillBuffer_skip hfill]
    exact ⟨hdr, hrS⟩

theorem matchBuffer_none_minpos {ps : List (List Nat)} {repl : List Nat} {st : SState}
    (hdh : st.dropHead ≤ SEARCH_MAX)
    (h : matchBuffer ps repl st = .ok none) : 1 ≤ minimumMatchLength ps := by
  cases ps with
  | nil => rw [matchBuffer] at h; cases h
  | cons p0 rest =>
    cases rest with
    | cons q qs =>
      simp only [minimumMatchLength, List.length_cons]
      omega
    | nil =>
      by_contra hlt
      have hp0 : p0 = [] := by
        simp only [minimumMatchLength, List.map_cons, List.map_nil, List.sum_cons,
          List.sum_nil, List.length_cons, List.length_nil] at hlt
        rw [← List.length_eq_zero]
        omega
      subst hp0
      simp only [matchBuffer, matchOnePattern, List.length_nil, Nat.add_zero,
        List.take_zero] at h
      rw [if_neg (by omega), if_pos trivial] at h
      simp only [matchRest] at h
      cases h

/-- C5 (amended): provided the minimum match length fits the scan buffer,
whenever `read_diffs` stops (returns no further diff) the source is fully
exhausted and fewer than `minimum_match_length` bytes remain buffered. -/
theorem readDiffs_stop_exhausted {ps : List (List Nat)} {repl : List Nat}
    (hminS : minimumMatchLength ps ≤ SEARCH_MAX) :
    ∀ (fuel : Nat) (st st' : SState), st.dropHead ≤ st.readHead →
      st.readHead ≤ SEARCH_MAX →
      readDiffs ps repl fuel st = .ok (none, st') →
      st'.src = [] ∧ st'.readHead - st'.dropHead < minimumMatchLength ps := by
  intro fuel
  induction fuel with
  | zero =>
    intro st st' _ _ h
    rw [readDiffs] at h
    cases h
  | succ f ih =>
    intro st st' hdr hrS h
    obtain ⟨hJ1, hJ2⟩ := @fill_J ps st hdr hrS
    rw [readDiffs] at h
    try dsimp only at h
    split at h
    case isTrue hstop =>
      injection h with h1
      injection h1 with h2 h3
      subst h3
      exact ⟨fill_stop_src_nil hminS hdr hrS hstop, by omega⟩
    case isFalse hstop =>
      push_neg at hstop
      split at h
      case h_1 e heq => cases h
      case h_2 heq =>
        have hmin1 : 1 ≤ minimumMatchLength ps :=
          matchBuffer_none_minpos (by omega) heq
        split at h
        case h_1 e2 heq2 => cases h
        case h_2 st2 heq2 =>
          obtain ⟨g1, g2, g3, g4, g5⟩ := dropBytes_spec 1 _ _ heq2
          exact ih st2 st' (by omega) (by omega) h
      case h_3 heap heq =>
        split at h
        case h_1 e2 heq2 => cases h
        case h_2 st2 heq2 => simp at h



/-- Final scanner state of the C5 witness run (`pattern "a"`, input `"xy"`). -/
def c5WitnessState : SState :=
  ⟨0, [120, 121] ++ List.replicate 4094 0, 2, 2, 2, []⟩

/-- Witness for the amended C5: on input `"xy"` with pattern `"a"`, the scan
stops only after the whole source has been read and fewer than
`minimum_match_length` bytes remain. -/
theorem readDiffs_stop_exhausted_witness :
    c5WitnessState.src = [] ∧
      c5WitnessState.readHead - c5WitnessState.dropHead < minimumMatchLength [[97]] :=
  @readDiffs_stop_exhausted [[97]] [98] (by decide) 9 (initSState [120, 121])
    c5WitnessState (by decide) (by decide) rfl

theorem findNl_spec : ∀ (l : List Nat) (i : Nat), findNl l = some i →
    l.getD i 0 = 10 ∧ ∀ j, j < i → l.getD j 0 ≠ 10 := by
  intro l
  induction l with
  | nil => intro i h; cases h
  | cons a as ih =>
    intro i h
    rw [findNl] at h
    by_cases h10 : a = 10
    · rw [if_pos h10] at h
      cases h
      refine ⟨by simpa using h10, by omega⟩
    · rw [if_neg h10] at h
      cases hf : findNl as with
      | none => rw [hf] at h; cases h
      | some k =>
        rw [hf, show Option.map (· + 1) (some k) = some (k + 1) from rfl] at h
        cases h
        obtain ⟨h1, h2⟩ := ih k hf
        refine ⟨by simpa using h1, ?_⟩
        intro j hj
        cases j with
        | zero => simpa using h10
        | succ j' =>
          simpa using h2 j' (by omega)

/-- Semantics of `next_line_offset`: `some nl` means `startOffset + nl` is the
offset of the first byte after the next newline at or beyond `startOffset`. -/
theorem nextLineOffset_spec {buf : List Nat} {o nl : Nat}
    (h : nextLineOffset buf o = some nl) :
    1 ≤ nl ∧ buf.getD (o + (nl - 1)) 0 = 10 ∧
      ∀ j, j < nl - 1 → buf.getD (o + j) 0 ≠ 10 := by
  rw [nextLineOffset] at h
  cases hf : findNl (buf.drop o) with
  | none => rw [hf] at h; cases h
  | some i =>
    rw [hf, show Option.map (· + 1) (some i) = some (i + 1) from rfl] at h
    cases h
    obtain ⟨h1, h2⟩ := findNl_spec _ _ hf
    have hget : ∀ k, (buf.drop o).getD k 0 = buf.getD (o + k) 0 := by
      intro k
      rw [List.getD_eq_getElem?_getD, List.getD_eq_getElem?_getD, List.getElem?_drop]
    refine ⟨by omega, ?_, ?_⟩
    · rw [Nat.add_sub_cancel, ← hget]
      exact h1
    · intro j hj
      rw [← hget]
      exact h2 j (by omega)



/-- C4 (amended, two-part sequences): `match_buffer` matches a block group
exactly when pattern 1 matches at the scan position and pattern 2 matches at
offset `p1.length + nl + last_line_start` from it — i.e. at the start of the
line immediately following pattern 1's match end (`nl`, see
`nextLineOffset_spec`), shifted by pattern 1's match-start column.  No
`COLUMN_MAX` bound restricts the column at match time; on any part's failure
the whole group yields `none` and no diff is emitted. -/
theorem matchBuffer_two {p1 p2 r : List Nat} {st : SState} {nl : Nat}
    (h1 : st.dropHead + p1.length ≤ SEARCH_MAX)
    (hnl : nextLineOffset st.buf (st.dropHead + p1.length) = some nl)
    (h2 : st.dropHead + (p1.length + nl + st.lastLineStart) + p2.length ≤ SEARCH_MAX) :
    matchBuffer [p1, p2] r st =
      .ok (if (st.buf.drop st.dropHead).take p1.length = p1 ∧
              (st.buf.drop (st.dropHead + (p1.length + nl + st.lastLineStart))).take
                p2.length = p2
           then some [⟨st.pos + st.dropHead, p1.length, r⟩,
                      ⟨st.pos + (st.dropHead + (p1.length + nl + st.lastLineStart)),
                        p2.length, r⟩]
           else none) := by
  simp only [matchBuffer, matchOnePattern, Nat.add_zero]
  rw [if_neg (by omega)]
  by_cases hs1 : (st.buf.drop st.dropHead).take p1.length = p1
  · rw [if_pos hs1]
    simp only [matchRest, Nat.zero_add]
    rw [hnl]
    simp only [matchOnePattern]
    rw [if_neg (by omega)]
    by_cases hs2 : (st.buf.drop (st.dropHead + (p1.length + nl + st.lastLineStart))).take
        p2.length = p2
    · rw [if_pos hs2, if_pos ⟨hs1, hs2⟩]
      simp only [matchRest]
      rfl
    · rw [if_neg hs2, if_neg (by rintro ⟨-, hc⟩; exact hs2 hc)]
  · rw [if_neg hs1, if_neg (by rintro ⟨hc, -⟩; exact hs1 hc)]

/-- Scanner state for the C4 witness: buffer holds `"a\nb"`, scan at offset 0,
column 0. -/
def c4WitnessState : SState :=
  ⟨0, [97, 10, 98] ++ List.replicate 4093 0, 3, 0, 0, []⟩

/-- Witness for the amended C4: in the `"a\nb"` buffer the block group
`["a","b"]` matches with the second diff at position 2 (start of the next
line, column 0). -/
theorem matchBuffer_two_witness :
    matchBuffer [[97], [98]] [82] c4WitnessState =
      .ok (some [⟨0, 1, [82]⟩, ⟨2, 1, [82]⟩]) := by
  rw [@matchBuffer_two [97] [98] [82] c4WitnessState 1 (by decide) (by rfl) (by decide)]
  rw [if_pos ⟨by rfl, by rfl⟩]
  rfl



/-- Payload of a worker-thread panic, as seen by the `From<Box<dyn Any + Send>>
for Error` conversion in `error.rs`: a `String`/`&'static str` downcast
succeeds, anything else is unprintable. -/
inductive PanicPayload where
  | str (s : String)
  | other
deriving DecidableEq, Repr

/-- Per-path outcome error type of the dispatcher (`replace_glob`): a per-entry
glob enumeration error, a per-file error from `replace_path`, or a converted
worker panic (`Error::ThreadPanic`). -/
inductive DispatchError where
  | globEntry (e : Nat)
  | perFile (e : Nat)
  | threadPanic (msg : String)
deriving DecidableEq, Repr

/-- Conversion `impl From<Box<dyn Any + Send>> for Error`: a printable payload becomes
`ThreadPanic` with its text, anything else the generic message. -/
def panicToError : PanicPayload → DispatchError
  | .str s => .threadPanic s
  | .other => .threadPanic "A thread panicked with an unprintable payload."

/-- The closure spawned for one glob entry in `replace_glob`, as a value at
the join boundary: `.error payload` is a panic escaping the closure.  A glob
enumeration error becomes that slot's error; a directory is a trivial
success; otherwise the unit of work `runUnit` (the `replace_path` call for
that file, abstracted over the filesystem) runs and may succeed, fail, or
panic. -/
def spawnUnit (isDir : Nat → Bool) (runUnit : Nat → Except PanicPayload (Except Nat Unit))
    (entry : Except Nat Nat) : Except PanicPayload (Except DispatchError Nat) :=
  match entry with
  | .error e => .ok (.error (.globEntry e))
  | .ok path =>
    if !isDir path then
      match runUnit path with
      | .error payload => .error payload
      | .ok (.ok _) => .ok (.ok path)
      | .ok (.error e) => .ok (.error (.perFile e))
    else .ok (.ok path)

/-- Join step `handle.join()?`: a panic payload is converted into a per-slot
`ThreadPanic` error instead of propagating. -/
def joinUnit (w : Except PanicPayload (Except DispatchError Nat)) :
    Except DispatchError Nat :=
  match w with
  | .error payload => .error (panicToError payload)
  | .ok r => r

/-- Result vector of `replace_glob`: one spawned unit per glob entry, joined in
spawn order. -/
def replaceGlobList (isDir : Nat → Bool)
    (runUnit : Nat → Except PanicPayload (Except Nat Unit))
    (entries : List (Except Nat Nat)) : List (Except DispatchError Nat) :=
  (entries.map (spawnUnit isDir runUnit)).map joinUnit

/-- C7: `replace_glob` returns exactly one outcome per resolved glob entry, in
enumeration order; each slot is a function of its own entry alone (so sibling
failures and panics cannot affect it); a directory entry is a trivial
success; a panic in one unit becomes that slot's `ThreadPanic` error. -/
theorem replaceGlob_outcomes (isDir : Nat → Bool)
    (runUnit : Nat → Except PanicPayload (Except Nat Unit))
    (entries : List (Except Nat Nat)) :
    (replaceGlobList isDir runUnit entries).length = entries.length ∧
    (∀ i : Nat, (replaceGlobList isDir runUnit entries)[i]? =
      (entries[i]?).map (fun e => joinUnit (spawnUnit isDir runUnit e))) ∧
    (∀ p, isDir p = true → joinUnit (spawnUnit isDir runUnit (.ok p)) = .ok p) ∧
    (∀ p payload, isDir p = false → runUnit p = .error payload →
      joinUnit (spawnUnit isDir runUnit (.ok p)) =
        .error (panicToError payload)) ∧
    (∀ (entries' : List (Except Nat Nat)) (i : Nat), entries[i]? = entries'[i]? →
      (replaceGlobList isDir runUnit entries)[i]? =
        (replaceGlobList isDir runUnit entries')[i]?) := by
  refine ⟨by simp [replaceGlobList], ?_, ?_, ?_, ?_⟩
  · intro i
    simp only [replaceGlobList, List.getElem?_map, Option.map_map]
    rfl
  · intro p hdir
    simp [joinUnit, spawnUnit, hdir]
  · intro p payload hdir hpanic
    simp [joinUnit, spawnUnit, hdir, hpanic]
  · intro entries' i hsame
    simp [replaceGlobList, List.getElem?_map, hsame]

/-- Witness for C7 on a concrete dispatch: entry 0 is a directory (trivial
success), entry 1 is a glob enumeration error, entry 2 panics with payload
`"boom"`, entry 3 succeeds — four independent outcomes in order. -/
theorem replaceGlob_outcomes_witness :
    replaceGlobList (fun p => decide (p = 0))
      (fun p => if p = 2 then .error (.str "boom") else .ok (.ok ()))
      [.ok 0, .error 7, .ok 2, .ok 3] =
      [.ok 0, .error (.globEntry 7), .error (.threadPanic "boom"), .ok 3] := by
  have h := replaceGlob_outcomes (fun p => decide (p = 0))
    (fun p => if p = 2 then .error (.str "boom") else .ok (.ok ()))
    [.ok 0, .error 7, .ok 2, .ok 3]
  have h2 := h.2.2.1 0 (by decide)
  have h3 := h.2.2.2.1 2 (.str "boom") (by decide) (by rfl)
  rw [replaceGlobList]
  simp only [List.map_cons, List.map_nil]
  rw [show spawnUnit (fun p => decide (p = 0)) _ (.ok 0) = .ok (.ok 0) from rfl]
  rfl

/-- The CLI driver `run` from `main.rs` together with `main`'s exit status:
on a top-level error it prints one diagnostic line and nothing else; on
success it prints nothing.  `main` returns `()` in both cases, so the process
exit status is always 0. -/
def runCli (result : Except String (List (Except String Nat))) :
    List String × Nat :=
  match result with
  | .ok _ => ([], 0)
  | .error e => (["cannot replace: " ++ e], 0)

/-- C9 (amended): the CLI prints the top-level error (and is silent on
success), but the process exits with status 0 in *both* cases — `run` ignores
per-path errors inside an `Ok` vector and `main` never sets an exit code. -/
theorem runCli_behavior :
    (∀ e, runCli (.error e) = (["cannot replace: " ++ e], 0)) ∧
    (∀ v, runCli (.ok v) = ([], 0)) := by
  exact ⟨fun e => rfl, fun v => rfl⟩

/-- C9 counterexample: on a failing run the exit status is 0, not non-zero,
even though the diagnostic is printed. -/
theorem runCli_exit_zero :
    (runCli (.error "Pattern error: wildcard")).2 = 0 ∧
    (runCli (.error "Pattern error: wildcard")).1 ≠ [] := by
  exact ⟨rfl, by simp [runCli]⟩


end Ved
